import Mathlib

/-!
# Verification of the timr countdown timer's control loop

Shallow embedding of `src/main.rs`: the two nested event loops
(`key_events_loop`, the Idle loop, and `all_events_loop`, the Running loop),
the shared countdown counter (an `AtomicUsize`, modelled as `Nat` since the
loop is its sole mutator and the renderer reads it synchronously from the
loop's own context), the merged event channel (modelled as the list of
results its `recv` calls return, in order), and the `draw` function.

Each loop is a structurally recursive function over the list of receive
results.  It returns the way the loop ended, the final counter value, and a
trace of the observable actions it performed (draw calls with the counter
value they display, consumed events, counter decrements).
-/

namespace Timr

/-- Key codes relevant to the program: `termion::event::Key`, restricted to
the constructors the two loops inspect (`Char c`, `Esc`) plus one stand-in
for every other variant, all of which fall into the loops' catch-all arms. -/
inductive Key where
  | char (c : Char)
  | esc
  | other
deriving DecidableEq, Repr

/-- Events on the merged channel: `enum TimrEvent { Input(Key), Tick }`
(src/main.rs lines 109-112). -/
inductive TimrEvent where
  | input (k : Key)
  | tick
deriving DecidableEq, Repr

/-- Outcome of one `recv()` on the merged channel: `Ok(event)` or the
`RecvError` raised once every producer handle has been dropped. -/
inductive RecvResult where
  | ok (e : TimrEvent)
  | err
deriving DecidableEq, Repr

/-- Observable actions a loop performs: a `terminal.draw` call showing the
counter value at that moment, the consumption of one event off the merged
channel, and one `fetch_sub(1)` on the shared counter. -/
inductive Action where
  | draw (shown : Nat)
  | consume (e : TimrEvent)
  | decrement
deriving DecidableEq, Repr

/-- Ways a loop invocation can end: `ok` models `return Ok(())` (and the
`break` at line 94, which falls through to `return Ok(())` at line 106);
`recvErr` models the `?` at lines 68/91 propagating a channel `RecvError`;
`panicked` models an `unwrap()` aborting the process on an `Err`;
`pending` means the supplied list of receive results was exhausted while the
loop was still blocked on `recv` (the loop is still running). -/
inductive LoopResult where
  | ok
  | recvErr
  | panicked
  | pending
deriving DecidableEq, Repr

/-- The Enter key press event (`Key::Char('\n')`, line 70). -/
def enterEv : RecvResult := .ok (.input (.char '\n'))

/-- The Escape key press event (`Key::Esc`, lines 74 and 99). -/
def escEv : RecvResult := .ok (.input .esc)

/-- The tick event (`TimrEvent::Tick`, line 92). -/
def tickEv : RecvResult := .ok .tick

/-- Running loop, `all_events_loop` (src/main.rs lines 84-107).  Each
iteration draws, then receives.  On `Tick`: if the counter is 0, `break`
(returning `Ok`), else `fetch_sub(1)` and continue.  On `Esc`: `return Ok`.
Any other key: continue.  A `RecvError` is propagated by `?`. -/
def allEventsLoop : Nat → List RecvResult → LoopResult × Nat × List Action
  | n, [] => (.pending, n, [.draw n])
  | n, .err :: _ => (.recvErr, n, [.draw n])
  | n, .ok .tick :: rest =>
      if n = 0 then (.ok, n, [.draw n, .consume .tick])
      else
        let r := allEventsLoop (n - 1) rest
        (r.1, r.2.1, .draw n :: .consume .tick :: .decrement :: r.2.2)
  | n, .ok (.input .esc) :: _ => (.ok, n, [.draw n, .consume (.input .esc)])
  | n, .ok (.input (.char c)) :: rest =>
      let r := allEventsLoop n rest
      (r.1, r.2.1, .draw n :: .consume (.input (.char c)) :: r.2.2)
  | n, .ok (.input .other) :: rest =>
      let r := allEventsLoop n rest
      (r.1, r.2.1, .draw n :: .consume (.input .other) :: r.2.2)

/-- Models the `.unwrap()` at line 71 on the result of `all_events_loop`:
an `Err` (a propagated `RecvError`) aborts the process with a panic. -/
def unwrapRun : LoopResult → LoopResult
  | .recvErr => .panicked
  | r => r

/-- Idle loop, `key_events_loop` (src/main.rs lines 61-82).  Each iteration
draws, then receives.  On `Enter` (`Key::Char('\n')`): run
`all_events_loop` to completion, `unwrap()` its result, then `return Ok`.
On `Esc`: `return Ok`.  Every other event (any other key, or a tick) falls
into a catch-all arm and the loop continues.  A `RecvError` is propagated
by `?`. -/
def keyEventsLoop : Nat → List RecvResult → LoopResult × Nat × List Action
  | n, [] => (.pending, n, [.draw n])
  | n, .err :: _ => (.recvErr, n, [.draw n])
  | n, .ok (.input (.char c)) :: rest =>
      if c = '\n' then
        let r := allEventsLoop n rest
        (unwrapRun r.1, r.2.1, .draw n :: .consume (.input (.char c)) :: r.2.2)
      else
        let r := keyEventsLoop n rest
        (r.1, r.2.1, .draw n :: .consume (.input (.char c)) :: r.2.2)
  | n, .ok (.input .esc) :: _ => (.ok, n, [.draw n, .consume (.input .esc)])
  | n, .ok (.input .other) :: rest =>
      let r := keyEventsLoop n rest
      (r.1, r.2.1, .draw n :: .consume (.input .other) :: r.2.2)
  | n, .ok .tick :: rest =>
      let r := keyEventsLoop n rest
      (r.1, r.2.1, .draw n :: .consume .tick :: r.2.2)

/-- Process exit disposition. -/
inductive ExitStatus where
  | success
  | failure
  | running
deriving DecidableEq, Repr

/-- Models `main` (line 57): `key_events_loop(..).unwrap()` — an `Ok` exits
the process with success, an `Err` or a panic inside the loop exits with a
failure signal, and `pending` means the process is still running. -/
def mainResult (d : Nat) (evs : List RecvResult) : ExitStatus :=
  match (keyEventsLoop d evs).1 with
  | .ok => .success
  | .recvErr => .failure
  | .panicked => .failure
  | .pending => .running

/-- The counter values displayed by the draw calls of a trace, in order:
one per loop iteration. -/
def drawValues : List Action → List Nat
  | [] => []
  | .draw v :: r => v :: drawValues r
  | _ :: r => drawValues r

/-- Number of draw calls in a trace. -/
def countDraws : List Action → Nat
  | [] => 0
  | .draw _ :: r => countDraws r + 1
  | _ :: r => countDraws r

/-- Number of events consumed off the merged channel in a trace. -/
def countConsumes : List Action → Nat
  | [] => 0
  | .consume _ :: r => countConsumes r + 1
  | _ :: r => countConsumes r

/-- Number of counter decrements in a trace. -/
def countDecs : List Action → Nat
  | [] => 0
  | .decrement :: r => countDecs r + 1
  | _ :: r => countDecs r

/-- Whether a trace contains at least one draw call. -/
def hasDraw : List Action → Bool
  | [] => false
  | .draw _ :: _ => true
  | _ :: r => hasDraw r

/-- The redraw policy as the spec states it: every consumed event is
followed, later in the trace, by at least one draw call. -/
def drawAfterEveryConsume : List Action → Bool
  | [] => true
  | .consume _ :: r => hasDraw r && drawAfterEveryConsume r
  | _ :: r => drawAfterEveryConsume r

/-- The draw-first iteration discipline: starting with no draw banked
(`b = false`), every consumed event must be preceded by a draw issued since
the previous consumption — one fresh draw call per loop iteration, issued
before the iteration's `recv`. -/
def wellDrawn : Bool → List Action → Bool
  | _, [] => true
  | _, .draw _ :: r => wellDrawn true r
  | b, .consume _ :: r => b && wellDrawn false r
  | b, .decrement :: r => wellDrawn b r

/-- Trace produced by `k` consecutive ticks of the Running loop starting
from counter value `n` (meaningful when `k ≤ n`, so each tick finds a
positive counter and decrements it). -/
def tickTrace : Nat → Nat → List Action
  | _, 0 => []
  | n, k + 1 => .draw n :: .consume .tick :: .decrement :: tickTrace (n - 1) k

/-- The guarded decrement implemented inline at src/main.rs lines 93-96
(`decrement_if_positive` in the design contract): when the value is 0 it is
left unchanged and `false` (no decrement) is reported; otherwise it drops by
one and `true` is reported. -/
def decrementIfPositive (n : Nat) : Nat × Bool :=
  if n = 0 then (n, false) else (n - 1, true)

/-- The `draw` function (src/main.rs lines 155-182): computes the top and
bottom margins `mar = ((height - 1.0) / 2.0) as u16` (for the one-line timer
widget; the float truncation and the saturating cast at `height = 0` agree
with Nat subtraction and division), renders the counter centred, and
returns `Ok`.  No branch produces an `Err`.  The payload records the three
layout constraint lengths and the displayed value. -/
def draw (h : Nat) (shown : Nat) : Except Unit (Nat × Nat × Nat × Nat) :=
  let heightOfTimer := 1
  let mar := (h - heightOfTimer) / 2
  Except.ok (mar, heightOfTimer, mar, shown)

/-! ## Unfolding lemmas -/

lemma allEventsLoop_tick_cons (n : Nat) (rest : List RecvResult) :
    allEventsLoop n (.ok .tick :: rest) =
      if n = 0 then (.ok, n, [.draw n, .consume .tick])
      else
        ((allEventsLoop (n - 1) rest).1, (allEventsLoop (n - 1) rest).2.1,
          .draw n :: .consume .tick :: .decrement :: (allEventsLoop (n - 1) rest).2.2) :=
  rfl

lemma keyEventsLoop_char_cons (n : Nat) (c : Char) (rest : List RecvResult) :
    keyEventsLoop n (.ok (.input (.char c)) :: rest) =
      if c = '\n' then
        (unwrapRun (allEventsLoop n rest).1, (allEventsLoop n rest).2.1,
          .draw n :: .consume (.input (.char c)) :: (allEventsLoop n rest).2.2)
      else
        ((keyEventsLoop n rest).1, (keyEventsLoop n rest).2.1,
          .draw n :: .consume (.input (.char c)) :: (keyEventsLoop n rest).2.2) :=
  rfl

/-! ## Trace bookkeeping lemmas -/

lemma drawValues_append (l1 l2 : List Action) :
    drawValues (l1 ++ l2) = drawValues l1 ++ drawValues l2 := by
  induction l1 with
  | nil => simp [drawValues]
  | cons a r ih => cases a <;> simp [drawValues, ih]

lemma countDecs_append (l1 l2 : List Action) :
    countDecs (l1 ++ l2) = countDecs l1 + countDecs l2 := by
  induction l1 with
  | nil => simp [countDecs]
  | cons a r ih =>
    cases a with
    | draw v => simp [countDecs, ih]
    | consume e => simp [countDecs, ih]
    | decrement =>
      show countDecs (r ++ l2) + 1 = countDecs r + 1 + countDecs l2
      omega

lemma countDecs_tickTrace (k : Nat) : ∀ n, countDecs (tickTrace n k) = k := by
  induction k with
  | zero => intro n; simp [tickTrace, countDecs]
  | succ k ih => intro n; simp [tickTrace, countDecs, ih]

lemma drawValues_tickTrace (k : Nat) :
    ∀ n, drawValues (tickTrace n k) = (List.range k).map (fun i => n - i) := by
  induction k with
  | zero => intro n; simp [tickTrace, drawValues]
  | succ k ih =>
    intro n
    simp only [tickTrace, drawValues, ih, List.range_succ_eq_map]
    simp [List.map_map, Function.comp]
    intro a ha
    omega

/-! ## Prefixes of ticks in the Running loop -/

lemma allEventsLoop_ticks :
    ∀ (k n : Nat), k ≤ n → ∀ evs,
      allEventsLoop n (List.replicate k tickEv ++ evs) =
        ((allEventsLoop (n - k) evs).1, (allEventsLoop (n - k) evs).2.1,
          tickTrace n k ++ (allEventsLoop (n - k) evs).2.2) := by
  intro k
  induction k with
  | zero => intro n _ evs; simp [tickTrace]
  | succ k ih =>
    intro n hk evs
    have hn : ¬ n = 0 := by omega
    have h1 : List.replicate (k + 1) tickEv ++ evs =
        .ok .tick :: (List.replicate k tickEv ++ evs) := by
      simp [List.replicate_succ, tickEv]
    rw [h1, allEventsLoop_tick_cons, if_neg hn, ih (n - 1) (by omega) evs]
    have h2 : n - 1 - k = n - (k + 1) := by omega
    rw [h2]
    simp [tickTrace]

/-- A Running-loop run that ends with `Ok` consumed only a proper prefix of
the channel; appending further receive results changes nothing. -/
lemma allEventsLoop_ok_append :
    ∀ (evs : List RecvResult) (n : Nat), (allEventsLoop n evs).1 = .ok →
      ∀ rest, allEventsLoop n (evs ++ rest) = allEventsLoop n evs := by
  intro evs
  induction evs with
  | nil => intro n h rest; simp [allEventsLoop] at h
  | cons a tail ih =>
    intro n h rest
    cases a with
    | err => simp [allEventsLoop] at h
    | ok e =>
      cases e with
      | tick =>
        by_cases hn : n = 0
        · subst hn
          simp [List.cons_append, allEventsLoop]
        · have e1 := allEventsLoop_tick_cons n tail
          have e2 := allEventsLoop_tick_cons n (tail ++ rest)
          rw [if_neg hn] at e1 e2
          rw [e1] at h
          simp only at h
          rw [List.cons_append, e2, e1, ih (n - 1) h rest]
      | input k =>
        cases k with
        | esc => simp [List.cons_append, allEventsLoop]
        | char c =>
          have h' : (allEventsLoop n tail).1 = .ok := by
            simpa [allEventsLoop] using h
          simp [List.cons_append, allEventsLoop, ih n h' rest]
        | other =>
          have h' : (allEventsLoop n tail).1 = .ok := by
            simpa [allEventsLoop] using h
          simp [List.cons_append, allEventsLoop, ih n h' rest]

/-! ## Counter invariants -/

lemma bounds_cons (n m : Nat) (tr : List Action) (hmn : m ≤ n)
    (h2 : ∀ v ∈ drawValues tr, v ≤ m)
    (h3 : List.Chain' (fun a b => b ≤ a) (drawValues tr)) :
    (∀ v ∈ (n :: drawValues tr), v ≤ n) ∧
    List.Chain' (fun a b => b ≤ a) (n :: drawValues tr) := by
  constructor
  · intro v hv
    rcases List.mem_cons.mp hv with rfl | hv'
    · exact le_refl _
    · exact le_trans (h2 v hv') hmn
  · rw [List.chain'_cons']
    exact ⟨fun y hy => le_trans (h2 y (List.mem_of_mem_head? hy)) hmn, h3⟩

lemma allEventsLoop_bounds :
    ∀ (evs : List RecvResult) (n : Nat),
      (allEventsLoop n evs).2.1 ≤ n ∧
      (∀ v ∈ drawValues (allEventsLoop n evs).2.2, v ≤ n) ∧
      List.Chain' (fun a b => b ≤ a) (drawValues (allEventsLoop n evs).2.2) := by
  intro evs
  induction evs with
  | nil => intro n; simp [allEventsLoop, drawValues]
  | cons a tail ih =>
    intro n
    cases a with
    | err => simp [allEventsLoop, drawValues]
    | ok e =>
      cases e with
      | tick =>
        by_cases hn : n = 0
        · subst hn; simp [allEventsLoop, drawValues]
        · have e1 := allEventsLoop_tick_cons n tail
          rw [if_neg hn] at e1
          rw [e1]
          obtain ⟨h1, h2, h3⟩ := ih (n - 1)
          simp only [drawValues]
          have hb := bounds_cons n (n - 1) (allEventsLoop (n - 1) tail).2.2 (by omega) h2 h3
          exact ⟨by omega, hb.1, hb.2⟩
      | input k =>
        cases k with
        | esc => simp [allEventsLoop, drawValues]
        | char c =>
          obtain ⟨h1, h2, h3⟩ := ih n
          simp only [allEventsLoop, drawValues]
          have hb := bounds_cons n n (allEventsLoop n tail).2.2 (le_refl n) h2 h3
          exact ⟨h1, hb.1, hb.2⟩
        | other =>
          obtain ⟨h1, h2, h3⟩ := ih n
          simp only [allEventsLoop, drawValues]
          have hb := bounds_cons n n (allEventsLoop n tail).2.2 (le_refl n) h2 h3
          exact ⟨h1, hb.1, hb.2⟩

lemma keyEventsLoop_bounds :
    ∀ (evs : List RecvResult) (n : Nat),
      (keyEventsLoop n evs).2.1 ≤ n ∧
      (∀ v ∈ drawValues (keyEventsLoop n evs).2.2, v ≤ n) ∧
      List.Chain' (fun a b => b ≤ a) (drawValues (keyEventsLoop n evs).2.2) := by
  intro evs
  induction evs with
  | nil => intro n; simp [keyEventsLoop, drawValues]
  | cons a tail ih =>
    intro n
    cases a with
    | err => simp [keyEventsLoop, drawValues]
    | ok e =>
      cases e with
      | tick =>
        obtain ⟨h1, h2, h3⟩ := ih n
        simp only [keyEventsLoop, drawValues]
        have hb := bounds_cons n n (keyEventsLoop n tail).2.2 (le_refl n) h2 h3
        exact ⟨h1, hb.1, hb.2⟩
      | input k =>
        cases k with
        | esc => simp [keyEventsLoop, drawValues]
        | char c =>
          by_cases hc : c = '\n'
          · have e1 := keyEventsLoop_char_cons n c tail
            rw [if_pos hc] at e1
            rw [e1]
            obtain ⟨h1, h2, h3⟩ := allEventsLoop_bounds tail n
            simp only [drawValues]
            have hb := bounds_cons n n (allEventsLoop n tail).2.2 (le_refl n) h2 h3
            exact ⟨h1, hb.1, hb.2⟩
          · have e1 := keyEventsLoop_char_cons n c tail
            rw [if_neg hc] at e1
            rw [e1]
            obtain ⟨h1, h2, h3⟩ := ih n
            simp only [drawValues]
            have hb := bounds_cons n n (keyEventsLoop n tail).2.2 (le_refl n) h2 h3
            exact ⟨h1, hb.1, hb.2⟩
        | other =>
          obtain ⟨h1, h2, h3⟩ := ih n
          simp only [keyEventsLoop, drawValues]
          have hb := bounds_cons n n (keyEventsLoop n tail).2.2 (le_refl n) h2 h3
          exact ⟨h1, hb.1, hb.2⟩

/-- The Idle loop alone never mutates the counter: if the channel never
delivers an Enter key press, the counter stays at its initial value and
every draw shows that value. -/
lemma keyEventsLoop_no_enter :
    ∀ (evs : List RecvResult) (n : Nat), enterEv ∉ evs →
      (keyEventsLoop n evs).2.1 = n ∧
      ∀ v ∈ drawValues (keyEventsLoop n evs).2.2, v = n := by
  intro evs
  induction evs with
  | nil => intro n _; simp [keyEventsLoop, drawValues]
  | cons a tail ih =>
    intro n h
    have hhd : ¬ a = enterEv := fun hh => h (hh ▸ List.mem_cons_self a tail)
    have htl : enterEv ∉ tail := fun hh => h (List.mem_cons_of_mem a hh)
    cases a with
    | err => simp [keyEventsLoop, drawValues]
    | ok e =>
      cases e with
      | tick =>
        obtain ⟨h1, h2⟩ := ih n htl
        simp only [keyEventsLoop, drawValues]
        refine ⟨h1, ?_⟩
        intro v hv
        rcases List.mem_cons.mp hv with rfl | hv'
        · rfl
        · exact h2 v hv'
      | input k =>
        cases k with
        | esc => simp [keyEventsLoop, drawValues]
        | char c =>
          by_cases hc : c = '\n'
          · exact absurd (by simp [enterEv, hc]) hhd
          · have e1 := keyEventsLoop_char_cons n c tail
            rw [if_neg hc] at e1
            rw [e1]
            obtain ⟨h1, h2⟩ := ih n htl
            simp only [drawValues]
            refine ⟨h1, ?_⟩
            intro v hv
            rcases List.mem_cons.mp hv with rfl | hv'
            · rfl
            · exact h2 v hv'
        | other =>
          obtain ⟨h1, h2⟩ := ih n htl
          simp only [keyEventsLoop, drawValues]
          refine ⟨h1, ?_⟩
          intro v hv
          rcases List.mem_cons.mp hv with rfl | hv'
          · rfl
          · exact h2 v hv'

/-! ## Redraw discipline -/

lemma allEventsLoop_wellDrawn :
    ∀ (evs : List RecvResult) (n : Nat),
      wellDrawn false (allEventsLoop n evs).2.2 = true ∧
      countDraws (allEventsLoop n evs).2.2 =
        countConsumes (allEventsLoop n evs).2.2 +
          (if (allEventsLoop n evs).1 = .ok then 0 else 1) := by
  intro evs
  induction evs with
  | nil => intro n; simp [allEventsLoop, wellDrawn, countDraws, countConsumes]
  | cons a tail ih =>
    intro n
    cases a with
    | err => simp [allEventsLoop, wellDrawn, countDraws, countConsumes]
    | ok e =>
      cases e with
      | tick =>
        by_cases hn : n = 0
        · subst hn; simp [allEventsLoop, wellDrawn, countDraws, countConsumes]
        · have e1 := allEventsLoop_tick_cons n tail
          rw [if_neg hn] at e1
          rw [e1]
          obtain ⟨h1, h2⟩ := ih (n - 1)
          simp only [wellDrawn, countDraws, countConsumes, Bool.true_and]
          exact ⟨h1, by omega⟩
      | input k =>
        cases k with
        | esc => simp [allEventsLoop, wellDrawn, countDraws, countConsumes]
        | char c =>
          obtain ⟨h1, h2⟩ := ih n
          simp only [allEventsLoop, wellDrawn, countDraws, countConsumes, Bool.true_and]
          exact ⟨h1, by omega⟩
        | other =>
          obtain ⟨h1, h2⟩ := ih n
          simp only [allEventsLoop, wellDrawn, countDraws, countConsumes, Bool.true_and]
          exact ⟨h1, by omega⟩

lemma unwrapRun_ok_iff (r : LoopResult) :
    (unwrapRun r = .ok) = (r = .ok) := by
  cases r <;> simp [unwrapRun]

lemma keyEventsLoop_wellDrawn :
    ∀ (evs : List RecvResult) (n : Nat),
      wellDrawn false (keyEventsLoop n evs).2.2 = true ∧
      countDraws (keyEventsLoop n evs).2.2 =
        countConsumes (keyEventsLoop n evs).2.2 +
          (if (keyEventsLoop n evs).1 = .ok then 0 else 1) := by
  intro evs
  induction evs with
  | nil => intro n; simp [keyEventsLoop, wellDrawn, countDraws, countConsumes]
  | cons a tail ih =>
    intro n
    cases a with
    | err => simp [keyEventsLoop, wellDrawn, countDraws, countConsumes]
    | ok e =>
      cases e with
      | tick =>
        obtain ⟨h1, h2⟩ := ih n
        simp only [keyEventsLoop, wellDrawn, countDraws, countConsumes, Bool.true_and]
        exact ⟨h1, by omega⟩
      | input k =>
        cases k with
        | esc => simp [keyEventsLoop, wellDrawn, countDraws, countConsumes]
        | char c =>
          by_cases hc : c = '\n'
          · have e1 := keyEventsLoop_char_cons n c tail
            rw [if_pos hc] at e1
            rw [e1]
            obtain ⟨h1, h2⟩ := allEventsLoop_wellDrawn tail n
            simp only [wellDrawn, countDraws, countConsumes, Bool.true_and,
              unwrapRun_ok_iff]
            exact ⟨h1, by omega⟩
          · have e1 := keyEventsLoop_char_cons n c tail
            rw [if_neg hc] at e1
            rw [e1]
            obtain ⟨h1, h2⟩ := ih n
            simp only [wellDrawn, countDraws, countConsumes, Bool.true_and]
            exact ⟨h1, by omega⟩
        | other =>
          obtain ⟨h1, h2⟩ := ih n
          simp only [keyEventsLoop, wellDrawn, countDraws, countConsumes, Bool.true_and]
          exact ⟨h1, by omega⟩

/-! ## Claim theorems -/

/-- C1 (counterexample): with duration 3 and events
[Enter, Tick, Esc, Enter, Tick], the Escape consumed in Running with
counter 2 > 0 makes the whole program terminate (exit status success): the
control loop does NOT resume waiting for a start signal — the Enter and
Tick that follow the Escape are never consumed (only 3 of the 5 events
are), refuting the claim that the loop "resumes waiting for a start signal"
and "does not terminate the program". -/
theorem escape_running_counterexample :
    keyEventsLoop 3 [enterEv, tickEv, escEv, enterEv, tickEv] =
      (.ok, 2,
        [.draw 3, .consume (.input (.char '\n')), .draw 3, .consume .tick,
          .decrement, .draw 2, .consume (.input .esc)]) ∧
    mainResult 3 [enterEv, tickEv, escEv, enterEv, tickEv] = .success ∧
    countConsumes (keyEventsLoop 3 [enterEv, tickEv, escEv, enterEv, tickEv]).2.2 = 3 := by
  refine ⟨?_, ?_, ?_⟩ <;> decide

/-- C1 (amended): Escape consumed in Running after `k` ticks with
`0 < k < d` makes the Running loop return with the counter left at its
last decremented value `d - k` — strictly positive (not forced to 0) and
strictly below `d` (not reset to the original duration); control then falls
back to the outer Idle loop, which immediately returns, ending the program
(result `ok`, the remaining channel contents never consumed). -/
theorem escape_running_amended (d k : Nat) (rest : List RecvResult)
    (hk : 0 < k) (hkd : k < d) :
    keyEventsLoop d (enterEv :: (List.replicate k tickEv ++ escEv :: rest)) =
      (.ok, d - k,
        .draw d :: .consume (.input (.char '\n')) ::
          (tickTrace d k ++ [.draw (d - k), .consume (.input .esc)])) ∧
    0 < d - k ∧ d - k < d := by
  have henter : enterEv :: (List.replicate k tickEv ++ escEv :: rest) =
      .ok (.input (.char '\n')) :: (List.replicate k tickEv ++ escEv :: rest) := by
    simp [enterEv]
  rw [henter, keyEventsLoop_char_cons, if_pos rfl,
    allEventsLoop_ticks k d (by omega) (escEv :: rest)]
  have hesc : allEventsLoop (d - k) (escEv :: rest) =
      (.ok, d - k, [.draw (d - k), .consume (.input .esc)]) := rfl
  rw [hesc]
  exact ⟨rfl, by omega, by omega⟩

/-- C1 (witness): the amended theorem at duration 3, one tick, then Escape
with a further tick pending: result `ok`, counter 2. -/
theorem escape_running_amended_witness :
    keyEventsLoop 3 (enterEv :: (List.replicate 1 tickEv ++ escEv :: [tickEv])) =
      (.ok, 3 - 1,
        .draw 3 :: .consume (.input (.char '\n')) ::
          (tickTrace 3 1 ++ [.draw (3 - 1), .consume (.input .esc)])) ∧
    0 < 3 - 1 ∧ 3 - 1 < 3 :=
  escape_running_amended 3 1 [tickEv] (by decide) (by decide)

/-- C2: with duration 3 and events [Enter, Tick, Tick, Tick, Tick] the
counter trace after each consumed event is [3, 2, 1, 0, 0]; the loop is
still running (pending) after ticks 1-3 and exits Running exactly when the
4th tick is consumed — that tick finds the counter at 0, causes no
decrement (3 decrements total over 5 consumed events), and ends the run
with result `ok`. -/
theorem countdown_trace_duration_three :
    (keyEventsLoop 3 [enterEv]).2.1 = 3 ∧
      (keyEventsLoop 3 [enterEv]).1 = .pending ∧
    (keyEventsLoop 3 [enterEv, tickEv]).2.1 = 2 ∧
      (keyEventsLoop 3 [enterEv, tickEv]).1 = .pending ∧
    (keyEventsLoop 3 [enterEv, tickEv, tickEv]).2.1 = 1 ∧
      (keyEventsLoop 3 [enterEv, tickEv, tickEv]).1 = .pending ∧
    (keyEventsLoop 3 [enterEv, tickEv, tickEv, tickEv]).2.1 = 0 ∧
      (keyEventsLoop 3 [enterEv, tickEv, tickEv, tickEv]).1 = .pending ∧
    keyEventsLoop 3 [enterEv, tickEv, tickEv, tickEv, tickEv] =
      (.ok, 0,
        [.draw 3, .consume (.input (.char '\n')), .draw 3, .consume .tick,
          .decrement, .draw 2, .consume .tick, .decrement, .draw 1,
          .consume .tick, .decrement, .draw 0, .consume .tick]) ∧
    countDecs (keyEventsLoop 3 [enterEv, tickEv, tickEv, tickEv, tickEv]).2.2 = 3 ∧
    countConsumes (keyEventsLoop 3 [enterEv, tickEv, tickEv, tickEv, tickEv]).2.2 = 5 := by
  refine ⟨?_, ?_, ?_, ?_, ?_, ?_, ?_, ?_, ?_, ?_, ?_⟩ <;> decide

/-- C3: once the loop has entered Running (Enter consumed in Idle), it
never processes another event in Idle: whenever the Running loop returns
`Ok` (countdown finished or Escape), the outer Idle loop immediately
returns `Ok`, ending the program — any further channel contents `rest` are
never consumed and do not affect the result, the counter, or the trace. -/
theorem running_exit_ends_program (n : Nat) (evs rest : List RecvResult)
    (h : (allEventsLoop n evs).1 = .ok) :
    keyEventsLoop n (enterEv :: (evs ++ rest)) =
      (.ok, (allEventsLoop n evs).2.1,
        .draw n :: .consume (.input (.char '\n')) :: (allEventsLoop n evs).2.2) := by
  have henter : enterEv :: (evs ++ rest) =
      .ok (.input (.char '\n')) :: (evs ++ rest) := by simp [enterEv]
  rw [henter, keyEventsLoop_char_cons, if_pos rfl,
    allEventsLoop_ok_append evs n h rest, h]
  rfl

/-- C3 (witness): duration 2, Running exited by Escape, with a further
Enter on the channel that is never consumed. -/
theorem running_exit_ends_program_witness :
    keyEventsLoop 2 (enterEv :: ([escEv] ++ [enterEv])) =
      (.ok, (allEventsLoop 2 [escEv]).2.1,
        .draw 2 :: .consume (.input (.char '\n')) :: (allEventsLoop 2 [escEv]).2.2) :=
  running_exit_ends_program 2 [escEv] [enterEv] (by decide)

/-- C4: for every initial duration `d`, starting the countdown with Enter
and consuming ticks until it completes (d decrementing ticks plus the one
that finds the counter at 0) decrements the counter exactly `d` times,
ends with the counter at 0 and result `ok`, and the counter value shown at
every iteration stays within `[0, d]` (the counter is a `usize` modelled as
`Nat`; exactly `d` decrements over `d + 1` ticks means the guard never lets
a decrement happen at 0, so no underflow ever occurs). -/
theorem countdown_completes (d : Nat) :
    keyEventsLoop d (enterEv :: List.replicate (d + 1) tickEv) =
      (.ok, 0,
        .draw d :: .consume (.input (.char '\n')) ::
          (tickTrace d d ++ [.draw 0, .consume .tick])) ∧
    countDecs (keyEventsLoop d (enterEv :: List.replicate (d + 1) tickEv)).2.2 = d ∧
    ∀ v ∈ drawValues (keyEventsLoop d (enterEv :: List.replicate (d + 1) tickEv)).2.2,
      v ≤ d := by
  have henter : enterEv :: List.replicate (d + 1) tickEv =
      .ok (.input (.char '\n')) :: List.replicate (d + 1) tickEv := by simp [enterEv]
  have hrep : List.replicate (d + 1) tickEv =
      List.replicate d tickEv ++ [tickEv] := by
    rw [List.replicate_succ']
  have hlast : allEventsLoop (d - d) [tickEv] =
      (.ok, 0, [.draw 0, .consume .tick]) := by
    rw [Nat.sub_self]
    rfl
  have hmain : keyEventsLoop d (enterEv :: List.replicate (d + 1) tickEv) =
      (.ok, 0,
        .draw d :: .consume (.input (.char '\n')) ::
          (tickTrace d d ++ [.draw 0, .consume .tick])) := by
    rw [henter, keyEventsLoop_char_cons, if_pos rfl, hrep,
      allEventsLoop_ticks d d (le_refl d) [tickEv], hlast]
    rfl
  refine ⟨hmain, ?_, ?_⟩
  · rw [hmain]
    simp [countDecs, countDecs_append, countDecs_tickTrace]
  · intro v hv
    exact (keyEventsLoop_bounds (enterEv :: List.replicate (d + 1) tickEv) d).2.1 v hv

/-- C4 (witness): the completion theorem at duration 2, with the draw-value
bound discharged at the concrete value 2 shown by the first draw. -/
theorem countdown_completes_witness :
    keyEventsLoop 2 (enterEv :: List.replicate 3 tickEv) =
      (.ok, 0,
        .draw 2 :: .consume (.input (.char '\n')) ::
          (tickTrace 2 2 ++ [.draw 0, .consume .tick])) ∧
    2 ∈ drawValues (keyEventsLoop 2 (enterEv :: List.replicate 3 tickEv)).2.2 ∧
    2 ≤ 2 :=
  ⟨(countdown_completes 2).1, by decide,
    (countdown_completes 2).2.2 2 (by decide)⟩

/-- C5: for every duration `d` and every channel content, (a) the counter
(a `usize`, modelled as `Nat`, hence never negative) never exceeds `d` —
neither its final value nor the value shown at any loop iteration; (b) the
per-iteration counter values form a non-increasing sequence (the counter
never increases while the loops run, in particular not while in Running);
and (c) if no Enter is ever delivered, so that only Idle-state events are
consumed, the counter is never mutated: it stays at `d` at every
iteration and at the end. -/
theorem counter_invariant :
    (∀ (d : Nat) (evs : List RecvResult),
        (keyEventsLoop d evs).2.1 ≤ d ∧
          ∀ v ∈ drawValues (keyEventsLoop d evs).2.2, v ≤ d) ∧
    (∀ (d : Nat) (evs : List RecvResult),
        List.Chain' (fun a b => b ≤ a) (drawValues (keyEventsLoop d evs).2.2)) ∧
    (∀ (d : Nat) (evs : List RecvResult), enterEv ∉ evs →
        (keyEventsLoop d evs).2.1 = d ∧
          ∀ v ∈ drawValues (keyEventsLoop d evs).2.2, v = d) :=
  ⟨fun d evs => ⟨(keyEventsLoop_bounds evs d).1, (keyEventsLoop_bounds evs d).2.1⟩,
   fun d evs => (keyEventsLoop_bounds evs d).2.2,
   fun d evs h => keyEventsLoop_no_enter evs d h⟩

/-- C5 (witness): the invariant at duration 2 on the channel [Esc]: final
counter bounded by 2, the shown value 2 bounded by 2, and — since no Enter
occurs — the counter is exactly 2 at the end. -/
theorem counter_invariant_witness :
    ((keyEventsLoop 2 [escEv]).2.1 ≤ 2) ∧
    (2 ∈ drawValues (keyEventsLoop 2 [escEv]).2.2 ∧ 2 ≤ 2) ∧
    (enterEv ∉ [escEv] ∧ (keyEventsLoop 2 [escEv]).2.1 = 2) :=
  ⟨(counter_invariant.1 2 [escEv]).1,
   ⟨by decide, (counter_invariant.1 2 [escEv]).2 2 (by decide)⟩,
   ⟨by decide, (counter_invariant.2.2 2 [escEv] (by decide)).1⟩⟩

/-- C6: the guarded decrement of src/main.rs lines 93-96: at 0 it leaves
the counter at 0 and reports that no decrement occurred, and stays at 0
under any number of repeated applications; at a nonzero value it decrements
by exactly one and reports success; and the Running loop's handling of a
tick refines exactly this operation (decrement-reported → decrement and
continue; no-decrement-reported → exit the loop). -/
theorem decrement_if_positive_spec :
    decrementIfPositive 0 = (0, false) ∧
    (∀ k : Nat, (fun m => (decrementIfPositive m).1)^[k] 0 = 0) ∧
    (∀ n : Nat, 0 < n → decrementIfPositive n = (n - 1, true)) ∧
    (∀ (n : Nat) (rest : List RecvResult),
        allEventsLoop n (.ok .tick :: rest) =
          if (decrementIfPositive n).2 then
            ((allEventsLoop (decrementIfPositive n).1 rest).1,
              (allEventsLoop (decrementIfPositive n).1 rest).2.1,
              .draw n :: .consume .tick :: .decrement ::
                (allEventsLoop (decrementIfPositive n).1 rest).2.2)
          else (.ok, n, [.draw n, .consume .tick])) := by
  refine ⟨rfl, ?_, ?_, ?_⟩
  · exact fun k => Function.iterate_fixed rfl k
  · intro n hn
    simp [decrementIfPositive, Nat.pos_iff_ne_zero.mp hn]
  · intro n rest
    by_cases hn : n = 0
    · subst hn
      simp [decrementIfPositive, allEventsLoop_tick_cons]
    · simp [decrementIfPositive, hn, allEventsLoop_tick_cons]

/-- C6 (witness): the guarded decrement at the concrete values 5 (succeeds,
yields 4) and iterated 3 times from 0 (stays 0). -/
theorem decrement_if_positive_spec_witness :
    decrementIfPositive 5 = (4, true) ∧
    (fun m => (decrementIfPositive m).1)^[3] 0 = 0 :=
  ⟨decrement_if_positive_spec.2.2.1 5 (by decide),
   decrement_if_positive_spec.2.1 3⟩

/-- C7: a failed receive on the merged channel is fatal in both loops: in
the Idle loop the `RecvError` is propagated (`?`) and `main`'s `unwrap`
turns it into a process failure; in the Running loop it is propagated to
the `unwrap` at the Idle loop's call site, which panics — either way the
process terminates with a failure signal. -/
theorem recv_failure_fatal :
    (∀ (d : Nat) (evs : List RecvResult),
        keyEventsLoop d (.err :: evs) = (.recvErr, d, [.draw d]) ∧
        mainResult d (.err :: evs) = .failure) ∧
    (∀ (d : Nat) (evs : List RecvResult),
        allEventsLoop d (.err :: evs) = (.recvErr, d, [.draw d]) ∧
        (keyEventsLoop d (enterEv :: .err :: evs)).1 = .panicked ∧
        mainResult d (enterEv :: .err :: evs) = .failure) := by
  constructor
  · exact fun d evs => ⟨rfl, rfl⟩
  · intro d evs
    have henter : enterEv :: RecvResult.err :: evs =
        .ok (.input (.char '\n')) :: RecvResult.err :: evs := by simp [enterEv]
    have h1 : (keyEventsLoop d (enterEv :: .err :: evs)).1 = .panicked := by
      rw [henter, keyEventsLoop_char_cons, if_pos rfl]
      rfl
    refine ⟨rfl, h1, ?_⟩
    rw [mainResult, h1]

/-- C8: Escape (the key that quits from Idle) consumed while in Idle state
ends the program at once for every configured duration: the Idle loop
returns `Ok`, the process exits successfully, the Running loop is never
entered (whatever follows on the channel is never consumed), and the
counter is untouched — still `d`, with no decrement in the trace. -/
theorem escape_idle_quits (d : Nat) (rest : List RecvResult) :
    keyEventsLoop d (escEv :: rest) = (.ok, d, [.draw d, .consume (.input .esc)]) ∧
    mainResult d (escEv :: rest) = .success ∧
    countDecs (keyEventsLoop d (escEv :: rest)).2.2 = 0 :=
  ⟨rfl, rfl, rfl⟩

/-- C9 (counterexample): with duration 3 and the single event Escape, the
run's trace is [draw 3, consume Esc] — the consumed Escape is followed by
no draw at all (the loop returns and the program ends), refuting "a draw is
issued after every consumed event". -/
theorem draw_after_consume_counterexample :
    (keyEventsLoop 3 [escEv]).2.2 = [.draw 3, .consume (.input .esc)] ∧
    drawAfterEveryConsume (keyEventsLoop 3 [escEv]).2.2 = false := by
  refine ⟨?_, ?_⟩ <;> decide

/-- C9 (amended): in both control-loop states exactly one draw call is
issued per loop iteration, issued at the top of the iteration before its
event is received: in every run, each consumed event is preceded by a draw
call fresh since the previous consumption (`wellDrawn`), so a draw is
issued before every consumed event and between any two consumed events;
and the number of draws equals the number of consumed events, plus one for
the final draw of an iteration whose receive does not complete normally
(a run still blocked on `recv` or ended by a receive failure) — an event
that makes its loop return is not followed by a further draw. -/
theorem draw_per_iteration_amended (d : Nat) (evs : List RecvResult) :
    wellDrawn false (keyEventsLoop d evs).2.2 = true ∧
    countDraws (keyEventsLoop d evs).2.2 =
      countConsumes (keyEventsLoop d evs).2.2 +
        (if (keyEventsLoop d evs).1 = .ok then 0 else 1) :=
  keyEventsLoop_wellDrawn evs d

/-- C10: the `draw` function returns `Ok` for every terminal height and
every counter value — it has no error branch — so the per-iteration
`unwrap` of its result in both loops can never fail. -/
theorem draw_never_errors (h shown : Nat) :
    (draw h shown).isOk = true ∧
    draw h shown = Except.ok ((h - 1) / 2, 1, (h - 1) / 2, shown) :=
  ⟨rfl, rfl⟩

end Timr
